import Mathlib

/-!
Shallow embedding of the event-resolution engine of `src/matcher.js`
(functions `findMatchingEventWithDebug`, `findMatchingEventSimple`,
`findMatchingEventLLM`, `normalizePlayerName`), together with theorems
settling the specification claims about it.

Conventions of the embedding:
* JS numbers that carry scores/confidences are modelled as rationals `ℚ`
  (a score constant like 0.7 is written `mkRat 7 10`, the kernel-computable
  constructor of rationals).
* JS strings are Lean `String`s; the string algorithms of the source
  (lowercasing, NFD decomposition, regex replaces, `includes`, `split`)
  are modelled on the underlying `List Char`.
* `toLowerCase`/`normalize('NFD')` are modelled on the Basic Latin and
  Latin-1 repertoire actually exercised by the matcher (ASCII plus the
  precomposed Latin-1 letters); outside that repertoire the model is the
  identity.
* The escalation (LLM) call of `findMatchingEventLLM` is a network
  effect; its observable outcome is modelled by the inductive
  `LLMOutcome` (thrown error, non-text content, or a parsed JSON body
  with `matchIndex` and `confidence`), and the function embeds the
  validation and indexing logic the source performs on that outcome.
-/

namespace BovadaMatcher

/-- Code point of a character, as a natural number. -/
def cv (c : Char) : Nat := c.toNat

/-- JS `\s` (whitespace) character class, as used by the regexes
`/[^a-z0-9\s]/g` and `/\s+/g` and by `String.prototype.trim`. -/
def isJsWs (c : Char) : Bool :=
  cv c == 0x20 || cv c == 0x9 || cv c == 0xA || cv c == 0xB || cv c == 0xC ||
  cv c == 0xD || cv c == 0xA0 || cv c == 0x1680 ||
  (0x2000 ≤ cv c && cv c ≤ 0x200A) ||
  cv c == 0x2028 || cv c == 0x2029 || cv c == 0x202F || cv c == 0x205F ||
  cv c == 0x3000 || cv c == 0xFEFF

/-- The combining-mark range `[̀-ͯ]` removed by
`.replace(/[̀-ͯ]/g, '')`. -/
def isMarkChar (c : Char) : Bool :=
  0x300 ≤ cv c && cv c ≤ 0x36F

/-- Characters kept by `.replace(/[^a-z0-9\s]/g, '')`: lowercase ASCII
letters, ASCII digits, and JS whitespace. -/
def isKeptChar (c : Char) : Bool :=
  (0x61 ≤ cv c && cv c ≤ 0x7A) || (0x30 ≤ cv c && cv c ≤ 0x39) || isJsWs c

/-- `String.prototype.toLowerCase`, per character, on the Basic Latin and
Latin-1 blocks: `A`–`Z` and `À`–`Þ` (except `×`) map down by 0x20,
everything else is unchanged. -/
def jsToLower (c : Char) : Char :=
  if 0x41 ≤ cv c ∧ cv c ≤ 0x5A then Char.ofNat (cv c + 0x20)
  else if 0xC0 ≤ cv c ∧ cv c ≤ 0xDE ∧ cv c ≠ 0xD7 then Char.ofNat (cv c + 0x20)
  else c

/-- Canonical decompositions used by `.normalize('NFD')`, restricted to
the precomposed lowercase Latin-1 letters (the uppercase ones have been
lowercased before `normalize` runs in the source pipeline). -/
def nfdTable : List (Char × List Char) :=
  [('à', ['a', Char.ofNat 0x300]), ('á', ['a', Char.ofNat 0x301]),
   ('â', ['a', Char.ofNat 0x302]), ('ã', ['a', Char.ofNat 0x303]),
   ('ä', ['a', Char.ofNat 0x308]), ('å', ['a', Char.ofNat 0x30A]),
   ('ç', ['c', Char.ofNat 0x327]), ('è', ['e', Char.ofNat 0x300]),
   ('é', ['e', Char.ofNat 0x301]), ('ê', ['e', Char.ofNat 0x302]),
   ('ë', ['e', Char.ofNat 0x308]), ('ì', ['i', Char.ofNat 0x300]),
   ('í', ['i', Char.ofNat 0x301]), ('î', ['i', Char.ofNat 0x302]),
   ('ï', ['i', Char.ofNat 0x308]), ('ñ', ['n', Char.ofNat 0x303]),
   ('ò', ['o', Char.ofNat 0x300]), ('ó', ['o', Char.ofNat 0x301]),
   ('ô', ['o', Char.ofNat 0x302]), ('õ', ['o', Char.ofNat 0x303]),
   ('ö', ['o', Char.ofNat 0x308]), ('ù', ['u', Char.ofNat 0x300]),
   ('ú', ['u', Char.ofNat 0x301]), ('û', ['u', Char.ofNat 0x302]),
   ('ü', ['u', Char.ofNat 0x308]), ('ý', ['y', Char.ofNat 0x301]),
   ('ÿ', ['y', Char.ofNat 0x308])]

/-- `.normalize('NFD')`, per character: decompose via `nfdTable`, leave
other characters alone. -/
def nfdChar (c : Char) : List Char :=
  match nfdTable.find? (fun e => e.1 == c) with
  | some e => e.2
  | none => [c]

/-- `.replace(/\s+/g, ' ')`: collapse every maximal run of JS whitespace
to a single space. -/
def collapseWs : List Char → List Char
  | [] => []
  | [c] => if isJsWs c then [' '] else [c]
  | c :: d :: rest =>
    if isJsWs c && isJsWs d then collapseWs (d :: rest)
    else (if isJsWs c then ' ' else c) :: collapseWs (d :: rest)

/-- Drop trailing JS whitespace. -/
def trimRight (l : List Char) : List Char :=
  (l.reverse.dropWhile isJsWs).reverse

/-- `String.prototype.trim`: drop leading and trailing JS whitespace. -/
def trimWs (l : List Char) : List Char :=
  trimRight (l.dropWhile isJsWs)

/-- The body of `normalizePlayerName`, on character lists: lowercase,
NFD-decompose, strip combining marks, strip everything that is not
`[a-z0-9\s]`, collapse whitespace runs to single spaces, trim. -/
def normalizeChars (l : List Char) : List Char :=
  trimWs (collapseWs (((((l.map jsToLower).flatMap nfdChar).filter
    (fun c => !isMarkChar c)).filter isKeptChar)))

/-- `normalizePlayerName` of `src/matcher.js`. -/
def normalizePlayerName (s : String) : String :=
  ⟨normalizeChars s.data⟩

/-- An event supplied by the feed, restricted to the fields the matcher
reads. Absent JS fields are `none`. -/
structure Event where
  sport : Option String := none
  league : Option String := none
  participant1 : Option String := none
  participant2 : Option String := none
  description : Option String := none
  displayName : Option String := none
deriving Repr, DecidableEq

/-- A parsed pick, restricted to the fields the matcher reads
(`players`, `sport`, `league`). -/
structure Pick where
  players : List String := []
  sport : Option String := none
  league : Option String := none
deriving Repr, DecidableEq

/-- An entry of `allCandidates`: an event with its lexical score. -/
structure Candidate where
  event : Event
  score : ℚ
deriving Repr, DecidableEq

/-- The object returned by `findMatchingEventSimple` (when non-null). -/
structure SimpleResult where
  event : Option Event
  confidence : ℚ
  allCandidates : List Candidate
deriving Repr, DecidableEq

/-- The object returned by `findMatchingEventWithDebug`. -/
structure MatchResult where
  event : Option Event
  confidence : ℚ
  candidates : List Candidate
deriving Repr, DecidableEq

/-- Does `hay` start with `sub`? -/
def startsWithChars : List Char → List Char → Bool
  | _, [] => true
  | [], _ :: _ => false
  | h :: hs, s :: ss => h == s && startsWithChars hs ss

/-- `hay.includes(sub)`: does `sub` occur contiguously in `hay`?
(JS `String.prototype.includes`.) -/
def containsChars : List Char → List Char → Bool
  | [], sub => sub.isEmpty
  | h :: hs, sub => startsWithChars (h :: hs) sub || containsChars hs sub

/-- JS truthiness of an optional string field: defined and non-empty. -/
def optTruthy : Option String → Bool
  | none => false
  | some s => !s.isEmpty

/-- Lowercased character list of a string (`s.toLowerCase()`). -/
def lowerChars (s : String) : List Char :=
  s.data.map jsToLower

/-- `Math.min`, written with a kernel-computable comparison. -/
def ratMin (a b : ℚ) : ℚ := if b < a then b else a

/-- The sport bonus of the scoring loop: +0.2 when `sport` and
`event.sport` are both truthy and equal case-insensitively. -/
def sportBonus (pick : Pick) (event : Event) : ℚ :=
  match pick.sport, event.sport with
  | some s, some es =>
    if s.isEmpty || es.isEmpty then 0
    else if lowerChars s = lowerChars es then mkRat 2 10 else 0
  | _, _ => 0

/-- The league bonus of the scoring loop: +0.1 when `league` and
`event.league` are both truthy and the lowercased pick league is a
substring of the lowercased event league
(`event.league.toLowerCase().includes(league.toLowerCase())`). -/
def leagueBonus (pick : Pick) (event : Event) : ℚ :=
  match pick.league, event.league with
  | some lg, some el =>
    if lg.isEmpty || el.isEmpty then 0
    else if containsChars (lowerChars el) (lowerChars lg) then mkRat 1 10 else 0
  | _, _ => 0

/-- The partial (token) match rule: some whitespace token of the
normalized player, longer than 2 characters, equals or is contained in
some whitespace token of the normalized participant. -/
def tokenMatch (np p : List Char) : Bool :=
  (np.splitOn ' ').any (fun part =>
    decide (2 < part.length) &&
    (p.splitOn ' ').any (fun pp => pp == part || containsChars pp part))

/-- The participant scan of the player loop: the first participant for
which one of the four rules fires contributes that rule's bonus (rules
tried in precedence order exact / contains / contained / token), and the
scan stops; if no participant fires, the player contributes 0. -/
def playerBonus (np : List Char) : List (List Char) → ℚ
  | [] => 0
  | p :: rest =>
    if p = np then mkRat 7 10
    else if containsChars p np ∧ 3 ≤ np.length then mkRat 6 10
    else if containsChars np p ∧ 3 ≤ p.length then mkRat 5 10
    else if tokenMatch np p then mkRat 4 10
    else playerBonus np rest

/-- The normalized participant pool of an event:
`[participant1, participant2, description, displayName].filter(Boolean).map(normalizePlayerName)`. -/
def participantPool (event : Event) : List (List Char) :=
  (([event.participant1, event.participant2, event.description,
     event.displayName].filterMap id).filter
    (fun s => !s.isEmpty)).map (fun s => normalizeChars s.data)

/-- The per-event score accumulation of `findMatchingEventSimple`:
sport bonus, league bonus, then one player bonus per pick player. -/
def scoreEvent (pick : Pick) (event : Event) : ℚ :=
  pick.players.foldl
    (fun acc pl => acc + playerBonus (normalizeChars pl.data) (participantPool event))
    (sportBonus pick event + leagueBonus pick event)

/-- Insert a candidate into a list sorted by score descending, after all
entries of greater-or-equal score (the stable position). -/
def insertCand (c : Candidate) : List Candidate → List Candidate
  | [] => [c]
  | d :: ds => if c.score ≤ d.score then d :: insertCand c ds else c :: d :: ds

/-- `allCandidates.sort((a, b) => b.score - a.score)`: a stable sort by
score descending (ECMAScript `Array.prototype.sort` is stable). -/
def sortCands (l : List Candidate) : List Candidate :=
  l.foldl (fun acc c => insertCand c acc) []

/-- The event loop of `findMatchingEventSimple`: threads the running
`bestMatch`/`bestScore` and the `allCandidates` accumulator (an event is
appended when its score is positive; the best is replaced only on a
strict improvement). -/
def scanEvents (pick : Pick) (best : Option Event) (bestScore : ℚ)
    (acc : List Candidate) : List Event → Option Event × ℚ × List Candidate
  | [] => (best, bestScore, acc)
  | e :: rest =>
    let score := scoreEvent pick e
    let acc' := if 0 < score then acc ++ [⟨e, score⟩] else acc
    if bestScore < score then scanEvents pick (some e) score acc' rest
    else scanEvents pick best bestScore acc' rest

/-- `findMatchingEventSimple` of `src/matcher.js`. Returns `none`
(JS `null`) when the pick has no players. -/
def findMatchingEventSimple (pick : Pick) (events : List Event) :
    Option SimpleResult :=
  if pick.players.isEmpty then none
  else
    let r := scanEvents pick none 0 [] events
    let sorted := sortCands r.2.2
    match r.1 with
    | some e => some ⟨some e, ratMin r.2.1 1, sorted⟩
    | none => some ⟨none, 0, sorted⟩

/-- The observable outcome of the escalation (LLM) request issued by
`findMatchingEventLLM`: the request/parse threw (`failure`), the reply
content was not text (`nonText`), or a JSON body was parsed carrying a
`matchIndex` (possibly `null`) and a confidence. -/
inductive LLMOutcome where
  | failure : LLMOutcome
  | nonText : LLMOutcome
  | parsed : Option Int → ℚ → LLMOutcome
deriving Repr, DecidableEq

/-- `findMatchingEventLLM` of `src/matcher.js`, given the outcome of its
network call: on a thrown error or non-text content it returns `null`;
on a parsed body it returns `events[matchIndex]` when
`matchIndex !== null && matchIndex >= 0 && matchIndex < events.length`,
else `null`. -/
def findMatchingEventLLM (events : List Event) (outcome : LLMOutcome) :
    Option Event :=
  match outcome with
  | .failure => none
  | .nonText => none
  | .parsed idx _conf =>
    match idx with
    | none => none
    | some i =>
      if 0 ≤ i ∧ i < (events.length : Int) then events.get? i.toNat
      else none

/-- The `candidates` list the policy attaches to every result:
`simpleResult?.allCandidates || []`. -/
def candidatesOf : Option SimpleResult → List Candidate
  | some r => r.allCandidates
  | none => []

/-- `findMatchingEventWithDebug` of `src/matcher.js`. `apiKey` is the
truthiness of the Anthropic API key (escalation availability); `llm` is
the outcome the escalation request would have. The second component
records whether the escalation resolver was invoked. -/
def findMatchingEventWithDebug (pick : Pick) (events : List Event)
    (apiKey : Bool) (llm : LLMOutcome) : MatchResult × Bool :=
  if events.isEmpty then (⟨none, 0, []⟩, false)
  else
    let simpleResult := findMatchingEventSimple pick events
    let candidates := candidatesOf simpleResult
    let earlyAccept : Option MatchResult :=
      match simpleResult with
      | some r =>
        if mkRat 5 10 ≤ r.confidence ∧ (mkRat 7 10 ≤ r.confidence ∨ apiKey = false) then
          some ⟨r.event, r.confidence, candidates⟩
        else none
      | none => none
    match earlyAccept with
    | some res => (res, false)
    | none =>
      match (if apiKey then findMatchingEventLLM events llm else none) with
      | some e => (⟨some e, mkRat 9 10, candidates⟩, apiKey)
      | none =>
        match simpleResult with
        | some r =>
          if mkRat 3 10 ≤ r.confidence then (⟨r.event, r.confidence, candidates⟩, apiKey)
          else (⟨none, 0, candidates⟩, apiKey)
        | none => (⟨none, 0, candidates⟩, apiKey)

/-- `findMatchingEvent` of `src/matcher.js`: `result?.event || null`. -/
def findMatchingEvent (pick : Pick) (events : List Event) (apiKey : Bool)
    (llm : LLMOutcome) : Option Event :=
  (findMatchingEventWithDebug pick events apiKey llm).1.event

/-- Characters that can appear in a normalized name: lowercase ASCII
letters, ASCII digits, or a single space. -/
def PlainChar (c : Char) : Prop :=
  (0x61 ≤ cv c ∧ cv c ≤ 0x7A) ∨ (0x30 ≤ cv c ∧ cv c ≤ 0x39) ∨ c = ' '

/- `Rat.add` is `@[irreducible]` in Batteries, which blocks `decide` on
concrete score arithmetic; make it reducible for the proofs below. -/
attribute [local semireducible] Rat.add

/-! ### Generic list lemmas -/

theorem ratMin_eq_min (a b : ℚ) : ratMin a b = min a b := by
  rw [ratMin]
  split
  · exact (min_eq_right (le_of_lt (by assumption))).symm
  · exact (min_eq_left (le_of_not_lt (by assumption))).symm

theorem foldl_add_eq_sum (f : α → ℚ) (l : List α) (b : ℚ) :
    l.foldl (fun acc x => acc + f x) b = b + (l.map f).sum := by
  induction l generalizing b with
  | nil => simp
  | cons x xs ih => simp [ih, add_assoc]

theorem le_foldl_max (l : List ℚ) (s : ℚ) : s ≤ l.foldl max s := by
  induction l generalizing s with
  | nil => simp
  | cons x xs ih => exact le_trans (le_max_left s x) (ih (max s x))

theorem mem_le_foldl_max (l : List ℚ) (s x : ℚ) (hx : x ∈ l) :
    x ≤ l.foldl max s := by
  induction l generalizing s with
  | nil => cases hx
  | cons y ys ih =>
    rcases List.mem_cons.mp hx with h | h
    · subst h; exact le_trans (le_max_right s x) (le_foldl_max ys (max s x))
    · exact ih (max s y) h

theorem foldl_max_le (l : List ℚ) (s b : ℚ) (hs : s ≤ b)
    (h : ∀ x ∈ l, x ≤ b) : l.foldl max s ≤ b := by
  induction l generalizing s with
  | nil => simpa using hs
  | cons y ys ih =>
    exact ih (max s y) (max_le hs (h y (List.mem_cons_self y ys))) fun x hx =>
      h x (List.mem_cons_of_mem y hx)

/-! ### Lemmas about the event-scan loop -/

theorem scanEvents_nil (pick : Pick) (b : Option Event) (s : ℚ)
    (acc : List Candidate) : scanEvents pick b s acc [] = (b, s, acc) := rfl

theorem scanEvents_candidates (pick : Pick) (l : List Event) :
    ∀ (b : Option Event) (s : ℚ) (acc : List Candidate),
      (scanEvents pick b s acc l).2.2 =
        acc ++ (l.map (fun e => Candidate.mk e (scoreEvent pick e))).filter
          (fun c => decide (0 < c.score)) := by
  induction l with
  | nil => intro b s acc; simp [scanEvents]
  | cons e rest ih =>
    intro b s acc
    by_cases hpos : 0 < scoreEvent pick e
    · by_cases himp : s < scoreEvent pick e <;>
        simp [scanEvents, hpos, himp, ih, List.filter_cons]
    · by_cases himp : s < scoreEvent pick e <;>
        simp [scanEvents, hpos, himp, ih, List.filter_cons]

theorem scanEvents_bestScore (pick : Pick) (l : List Event) :
    ∀ (b : Option Event) (s : ℚ) (acc : List Candidate),
      (scanEvents pick b s acc l).2.1 = (l.map (scoreEvent pick)).foldl max s := by
  induction l with
  | nil => intro b s acc; simp [scanEvents]
  | cons e rest ih =>
    intro b s acc
    by_cases himp : s < scoreEvent pick e
    · simp [scanEvents, himp, ih, List.foldl_cons, max_eq_right (le_of_lt himp)]
    · simp [scanEvents, himp, ih, List.foldl_cons, max_eq_left (le_of_not_lt himp)]

theorem scanEvents_isSome (pick : Pick) (l : List Event) :
    ∀ (e₀ : Event) (s : ℚ) (acc : List Candidate),
      ((scanEvents pick (some e₀) s acc l).1).isSome := by
  induction l with
  | nil => intro e₀ s acc; simp [scanEvents]
  | cons e rest ih =>
    intro e₀ s acc
    by_cases himp : s < scoreEvent pick e <;> simp [scanEvents, himp, ih]

theorem scanEvents_none (pick : Pick) (l : List Event) :
    ∀ (b : Option Event) (s : ℚ) (acc : List Candidate),
      (scanEvents pick b s acc l).1 = none → ∀ x ∈ l, scoreEvent pick x ≤ s := by
  induction l with
  | nil => intro b s acc _ x hx; cases hx
  | cons e rest ih =>
    intro b s acc h x hx
    by_cases himp : s < scoreEvent pick e
    · exfalso
      have := scanEvents_isSome pick rest e (scoreEvent pick e)
        (if 0 < scoreEvent pick e then acc ++ [⟨e, scoreEvent pick e⟩] else acc)
      simp only [scanEvents, himp, if_true] at h
      rw [h] at this
      simp at this
    · simp only [scanEvents, himp, if_false] at h
      rcases List.mem_cons.mp hx with hx | hx
      · subst hx; exact le_of_not_lt himp
      · exact ih b s _ h x hx

theorem scanEvents_best_spec (pick : Pick) (l : List Event) :
    ∀ (b : Option Event) (s : ℚ) (acc : List Candidate) (e : Event),
      (scanEvents pick b s acc l).1 = some e →
      (b = some e ∧ ∀ x ∈ l, scoreEvent pick x ≤ s) ∨
      (∃ i : Fin l.length, l.get i = e ∧ s < scoreEvent pick e ∧
        (∀ x ∈ l, scoreEvent pick x ≤ scoreEvent pick e) ∧
        ∀ j : Fin l.length, (j : ℕ) < (i : ℕ) →
          scoreEvent pick (l.get j) < scoreEvent pick e) := by
  induction l with
  | nil => intro b s acc e h; left; exact ⟨h, by intro x hx; cases hx⟩
  | cons e₀ rest ih =>
    intro b s acc e h
    by_cases himp : s < scoreEvent pick e₀
    · simp only [scanEvents, himp, if_true] at h
      rcases ih (some e₀) (scoreEvent pick e₀) _ e h with ⟨hb, hall⟩ | ⟨i, hget, hlt, hall, hpre⟩
      · right
        have he₀ : e₀ = e := Option.some.inj hb
        subst he₀
        refine ⟨⟨0, by simp⟩, rfl, himp, ?_, ?_⟩
        · intro x hx
          rcases List.mem_cons.mp hx with hx | hx
          · subst hx; exact le_refl _
          · exact hall x hx
        · intro j hj; simp at hj
      · right
        refine ⟨⟨(i : ℕ) + 1, by simp [i.isLt]⟩, by simpa using hget, lt_trans himp hlt, ?_, ?_⟩
        · intro x hx
          rcases List.mem_cons.mp hx with hx | hx
          · subst hx; exact le_of_lt hlt
          · exact hall x hx
        · intro j hj
          match j, hj with
          | ⟨0, h0⟩, _ => simpa using hlt
          | ⟨jn + 1, hjn⟩, hj =>
            have := hpre ⟨jn, by simpa using hjn⟩ (by simpa using hj)
            simpa using this
    · simp only [scanEvents, himp, if_false] at h
      rcases ih b s _ e h with ⟨hb, hall⟩ | ⟨i, hget, hlt, hall, hpre⟩
      · left
        refine ⟨hb, ?_⟩
        intro x hx
        rcases List.mem_cons.mp hx with hx | hx
        · subst hx; exact le_of_not_lt himp
        · exact hall x hx
      · right
        refine ⟨⟨(i : ℕ) + 1, by simp [i.isLt]⟩, by simpa using hget, hlt, ?_, ?_⟩
        · intro x hx
          rcases List.mem_cons.mp hx with hx | hx
          · subst hx; exact le_trans (le_of_not_lt himp) (le_of_lt hlt)
          · exact hall x hx
        · intro j hj
          match j, hj with
          | ⟨0, h0⟩, _ =>
            simpa using lt_of_le_of_lt (le_of_not_lt himp) hlt
          | ⟨jn + 1, hjn⟩, hj =>
            have := hpre ⟨jn, by simpa using hjn⟩ (by simpa using hj)
            simpa using this

/-! ### Lemmas about the stable descending sort -/

theorem mem_insertCand (x c : Candidate) (l : List Candidate) :
    x ∈ insertCand c l ↔ x = c ∨ x ∈ l := by
  induction l with
  | nil => simp [insertCand]
  | cons d ds ih =>
    by_cases h : c.score ≤ d.score
    · rw [insertCand, if_pos h]
      simp only [List.mem_cons, ih]
      tauto
    · rw [insertCand, if_neg h]
      simp only [List.mem_cons]

theorem insertCand_pairwise (c : Candidate) (l : List Candidate)
    (hl : l.Pairwise (fun a b => b.score ≤ a.score)) :
    (insertCand c l).Pairwise (fun a b => b.score ≤ a.score) := by
  induction l with
  | nil => simp [insertCand]
  | cons d ds ih =>
    rcases List.pairwise_cons.mp hl with ⟨hd, hds⟩
    by_cases h : c.score ≤ d.score
    · rw [insertCand, if_pos h]
      refine List.pairwise_cons.mpr ⟨?_, ih hds⟩
      intro x hx
      rcases (mem_insertCand x c ds).mp hx with hx | hx
      · subst hx; exact h
      · exact hd x hx
    · rw [insertCand, if_neg h]
      refine List.pairwise_cons.mpr ⟨?_, hl⟩
      intro x hx
      rcases List.mem_cons.mp hx with hx | hx
      · subst hx; exact le_of_not_le h
      · exact le_trans (hd x hx) (le_of_not_le h)

theorem insertCand_filter (c : Candidate) (l : List Candidate) (q : ℚ)
    (hl : l.Pairwise (fun a b => b.score ≤ a.score)) :
    (insertCand c l).filter (fun x => x.score == q) =
      l.filter (fun x => x.score == q) ++ if c.score == q then [c] else [] := by
  induction l with
  | nil => cases h : (c.score == q) <;> simp [insertCand, List.filter, h]
  | cons d ds ih =>
    rcases List.pairwise_cons.mp hl with ⟨hd, hds⟩
    by_cases h : c.score ≤ d.score
    · rw [insertCand, if_pos h]
      cases hdq : (d.score == q) <;>
        simp [List.filter_cons, hdq, ih hds]
    · rw [insertCand, if_neg h]
      have hcq : (c.score == q) = true ∨ (c.score == q) = false := by
        cases (c.score == q) <;> simp
      rcases hcq with hcq | hcq
      · have hq : q = c.score := by
          have := of_decide_eq_true hcq
          exact this.symm
        have hnone : (d :: ds).filter (fun x => x.score == q) = [] := by
          rw [List.filter_eq_nil_iff]
          intro x hx
          have hxle : x.score ≤ d.score := by
            rcases List.mem_cons.mp hx with hx | hx
            · subst hx; exact le_refl _
            · exact hd x hx
          have : x.score < c.score := lt_of_le_of_lt hxle (lt_of_not_le h)
          subst hq
          simp only [beq_iff_eq]
          exact ne_of_lt this
        simp [List.filter_cons, hcq, hnone]
      · simp [List.filter_cons, hcq]

theorem sortCands_aux (l : List Candidate) :
    ∀ acc : List Candidate, acc.Pairwise (fun a b => b.score ≤ a.score) →
      (l.foldl (fun a c => insertCand c a) acc).Pairwise (fun a b => b.score ≤ a.score) ∧
      (∀ x, x ∈ l.foldl (fun a c => insertCand c a) acc ↔ x ∈ acc ∨ x ∈ l) ∧
      (∀ q : ℚ, (l.foldl (fun a c => insertCand c a) acc).filter (fun x => x.score == q) =
        acc.filter (fun x => x.score == q) ++ l.filter (fun x => x.score == q)) := by
  induction l with
  | nil => intro acc hacc; refine ⟨hacc, by simp, by simp⟩
  | cons c cs ih =>
    intro acc hacc
    have hins := insertCand_pairwise c acc hacc
    rcases ih (insertCand c acc) hins with ⟨hp, hm, hf⟩
    refine ⟨hp, ?_, ?_⟩
    · intro x
      rw [List.foldl_cons, hm x, mem_insertCand, List.mem_cons]
      tauto
    · intro q
      rw [List.foldl_cons, hf q, insertCand_filter c acc q hacc, List.filter_cons]
      cases hcq : (c.score == q) <;> simp [hcq]

theorem sortCands_pairwise (l : List Candidate) :
    (sortCands l).Pairwise (fun a b => b.score ≤ a.score) :=
  (sortCands_aux l [] (by simp)).1

theorem mem_sortCands (x : Candidate) (l : List Candidate) :
    x ∈ sortCands l ↔ x ∈ l := by
  have := (sortCands_aux l [] (by simp)).2.1 x
  simpa [sortCands] using this

theorem sortCands_filter (l : List Candidate) (q : ℚ) :
    (sortCands l).filter (fun x => x.score == q) = l.filter (fun x => x.score == q) := by
  have := (sortCands_aux l [] (by simp)).2.2 q
  simpa [sortCands] using this

/-! ### Lemmas about `findMatchingEventSimple` -/

theorem simple_unfold (pick : Pick) (events : List Event)
    (hp : pick.players ≠ []) :
    findMatchingEventSimple pick events =
      (match (scanEvents pick none 0 [] events).1 with
       | some e => some ⟨some e, ratMin (scanEvents pick none 0 [] events).2.1 1,
           sortCands (scanEvents pick none 0 [] events).2.2⟩
       | none => some ⟨none, 0, sortCands (scanEvents pick none 0 [] events).2.2⟩) := by
  have hni : ¬(pick.players.isEmpty = true) := fun him =>
    hp (List.isEmpty_iff.mp him)
  rw [findMatchingEventSimple, if_neg hni]

theorem simple_none_iff (pick : Pick) (events : List Event) :
    findMatchingEventSimple pick events = none ↔ pick.players = [] := by
  constructor
  · intro hc
    by_contra hne
    rw [simple_unfold pick events hne] at hc
    rcases hbest : (scanEvents pick none 0 [] events).1 with _ | e <;>
      rw [hbest] at hc <;> simp at hc
  · intro hc
    rw [findMatchingEventSimple, if_pos (by simp [hc])]

theorem simple_eq_some (pick : Pick) (events : List Event) (r : SimpleResult)
    (hp : pick.players ≠ []) (hr : findMatchingEventSimple pick events = some r) :
    r = ⟨(scanEvents pick none 0 [] events).1,
         (match (scanEvents pick none 0 [] events).1 with
          | some _ => min ((events.map (scoreEvent pick)).foldl max 0) 1
          | none => 0),
         sortCands ((events.map (fun e => Candidate.mk e (scoreEvent pick e))).filter
           (fun c => decide (0 < c.score)))⟩ := by
  rw [simple_unfold pick events hp] at hr
  rcases hbest : (scanEvents pick none 0 [] events).1 with _ | e <;> rw [hbest] at hr
  · simp only at hr
    have heq := Option.some.inj hr
    subst heq
    simp [hbest, scanEvents_candidates]
  · simp only at hr
    have heq := Option.some.inj hr
    subst heq
    simp [hbest, scanEvents_candidates, scanEvents_bestScore, ratMin_eq_min]

theorem playerBonus_nonneg (np : List Char) (pool : List (List Char)) :
    0 ≤ playerBonus np pool := by
  induction pool with
  | nil => simp [playerBonus]
  | cons p rest ih =>
    rw [playerBonus]
    split
    · decide
    · split
      · decide
      · split
        · decide
        · split
          · decide
          · exact ih

theorem sportBonus_nonneg (pick : Pick) (event : Event) :
    0 ≤ sportBonus pick event := by
  rw [sportBonus]
  split <;> try decide
  split <;> try decide
  split <;> decide

theorem leagueBonus_nonneg (pick : Pick) (event : Event) :
    0 ≤ leagueBonus pick event := by
  rw [leagueBonus]
  split <;> try decide
  split <;> try decide
  split <;> decide

theorem scoreEvent_nonneg (pick : Pick) (event : Event) :
    0 ≤ scoreEvent pick event := by
  rw [scoreEvent, foldl_add_eq_sum]
  refine add_nonneg (add_nonneg (sportBonus_nonneg pick event)
    (leagueBonus_nonneg pick event)) (List.sum_nonneg ?_)
  intro x hx
  rcases List.mem_map.mp hx with ⟨pl, _, hpl⟩
  exact hpl ▸ playerBonus_nonneg _ _

/-- The facts needed about a non-null simple result with a non-null
event: its confidence is positive, and a maximal-score entry for the
event is among `allCandidates`. -/
theorem simple_some_facts (pick : Pick) (events : List Event)
    (r : SimpleResult) (e : Event) (hp : pick.players ≠ [])
    (hr : findMatchingEventSimple pick events = some r)
    (he : r.event = some e) :
    0 < r.confidence ∧
    ∃ c ∈ r.allCandidates, c.event = e ∧
      ∀ c' ∈ r.allCandidates, c'.score ≤ c.score := by
  have hre := simple_eq_some pick events r hp hr
  subst hre
  simp only at he
  rcases scanEvents_best_spec pick events none 0 [] e he with ⟨hb, _⟩ | ⟨i, hget, hlt, hall, _⟩
  · cases hb
  have hmem : e ∈ events := List.mem_iff_get.mpr ⟨i, hget⟩
  have hbs : scoreEvent pick e ≤ (events.map (scoreEvent pick)).foldl max 0 :=
    mem_le_foldl_max _ _ _ (List.mem_map.mpr ⟨e, hmem, rfl⟩)
  constructor
  · simp only [he]
    exact lt_min (lt_of_lt_of_le hlt hbs) one_pos
  · refine ⟨⟨e, scoreEvent pick e⟩, ?_, rfl, ?_⟩
    · rw [mem_sortCands, List.mem_filter]
      exact ⟨List.mem_map.mpr ⟨e, hmem, rfl⟩, by simpa using hlt⟩
    · intro c' hc'
      rw [mem_sortCands, List.mem_filter] at hc'
      rcases List.mem_map.mp hc'.1 with ⟨x, hx, hxc⟩
      subst hxc
      exact hall x hx

theorem simple_conf_of_event_none (pick : Pick) (events : List Event)
    (r : SimpleResult) (hp : pick.players ≠ [])
    (hr : findMatchingEventSimple pick events = some r)
    (he : r.event = none) : r.confidence = 0 := by
  have hre := simple_eq_some pick events r hp hr
  subst hre
  simp only at he
  simp [he]

/-! ### Unfolding lemmas for the resolution policy -/

theorem withDebug_unfold_some (pick : Pick) (events : List Event)
    (apiKey : Bool) (llm : LLMOutcome) (r : SimpleResult)
    (he : events ≠ [])
    (hr : findMatchingEventSimple pick events = some r) :
    findMatchingEventWithDebug pick events apiKey llm =
      if mkRat 5 10 ≤ r.confidence ∧ (mkRat 7 10 ≤ r.confidence ∨ apiKey = false) then
        (⟨r.event, r.confidence, r.allCandidates⟩, false)
      else
        match (if apiKey then findMatchingEventLLM events llm else none) with
        | some e => (⟨some e, mkRat 9 10, r.allCandidates⟩, apiKey)
        | none =>
          if mkRat 3 10 ≤ r.confidence then
            (⟨r.event, r.confidence, r.allCandidates⟩, apiKey)
          else (⟨none, 0, r.allCandidates⟩, apiKey) := by
  have hni : ¬(events.isEmpty = true) := by
    cases events <;> simp_all
  rw [findMatchingEventWithDebug, if_neg hni]
  simp only [hr, candidatesOf]
  by_cases hcond : mkRat 5 10 ≤ r.confidence ∧ (mkRat 7 10 ≤ r.confidence ∨ apiKey = false)
  · simp only [if_pos hcond]
  · simp only [if_neg hcond]

theorem withDebug_unfold_none (pick : Pick) (events : List Event)
    (apiKey : Bool) (llm : LLMOutcome)
    (he : events ≠ [])
    (hn : findMatchingEventSimple pick events = none) :
    findMatchingEventWithDebug pick events apiKey llm =
      match (if apiKey then findMatchingEventLLM events llm else none) with
      | some e => (⟨some e, mkRat 9 10, []⟩, apiKey)
      | none => (⟨none, 0, []⟩, apiKey) := by
  have hni : ¬(events.isEmpty = true) := by
    cases events <;> simp_all
  rw [findMatchingEventWithDebug, if_neg hni]
  simp only [hn, candidatesOf]

/-! ### Lemmas about normalization (idempotence) -/

theorem plain_le (c : Char) (h : PlainChar c) : cv c ≤ 0x7A := by
  rcases h with ⟨_, b⟩ | ⟨_, b⟩ | rfl
  · exact b
  · omega
  · decide

theorem jsToLower_plain (c : Char) (h : PlainChar c) : jsToLower c = c := by
  have hle : cv c ≤ 0x7A := plain_le c h
  have h1 : ¬(0x41 ≤ cv c ∧ cv c ≤ 0x5A) := by
    rcases h with ⟨a, b⟩ | ⟨a, b⟩ | rfl
    · omega
    · omega
    · decide
  have h2 : ¬(0xC0 ≤ cv c ∧ cv c ≤ 0xDE ∧ cv c ≠ 0xD7) := by omega
  rw [jsToLower, if_neg h1, if_neg h2]

theorem nfdChar_plain (c : Char) (h : PlainChar c) : nfdChar c = [c] := by
  have hnone : nfdTable.find? (fun e => e.1 == c) = none := by
    rw [List.find?_eq_none]
    intro x hx hbeq
    have htbl : ∀ y ∈ nfdTable, 0xC0 ≤ cv y.1 := by decide
    have hxc : 0xC0 ≤ cv x.1 := htbl x hx
    have hxeq : x.1 = c := eq_of_beq hbeq
    rw [hxeq] at hxc
    have := plain_le c h
    omega
  rw [nfdChar, hnone]

theorem isMarkChar_plain (c : Char) (h : PlainChar c) : isMarkChar c = false := by
  have hle := plain_le c h
  have h1 : decide (0x300 ≤ cv c) = false := decide_eq_false (by omega)
  rw [isMarkChar, h1, Bool.false_and]

theorem isKeptChar_plain (c : Char) (h : PlainChar c) : isKeptChar c = true := by
  simp only [isKeptChar, Bool.or_eq_true, Bool.and_eq_true, decide_eq_true_eq]
  rcases h with ⟨a, b⟩ | ⟨a, b⟩ | rfl
  · exact Or.inl (Or.inl ⟨a, b⟩)
  · exact Or.inl (Or.inr ⟨a, b⟩)
  · exact Or.inr (by decide)

theorem isJsWs_plain (c : Char) (h : PlainChar c) (hw : isJsWs c = true) :
    c = ' ' := by
  rcases h with ⟨a, b⟩ | ⟨a, b⟩ | rfl
  · exfalso
    simp only [isJsWs, Bool.or_eq_true, Bool.and_eq_true, decide_eq_true_eq,
      beq_iff_eq] at hw
    omega
  · exfalso
    simp only [isJsWs, Bool.or_eq_true, Bool.and_eq_true, decide_eq_true_eq,
      beq_iff_eq] at hw
    omega
  · rfl

theorem collapseWs_cons_of_nonWs (d : Char) (rest : List Char)
    (hd : isJsWs d = false) : collapseWs (d :: rest) = d :: collapseWs rest := by
  cases rest with
  | nil => simp [collapseWs, hd]
  | cons r rs => simp [collapseWs, hd]

theorem collapseWs_mem (l : List Char) :
    ∀ c ∈ collapseWs l, c = ' ' ∨ (c ∈ l ∧ isJsWs c = false) := by
  induction l with
  | nil => intro c hc; cases hc
  | cons a tl ih =>
    cases tl with
    | nil =>
      intro c hc
      cases ha : isJsWs a
      · simp [collapseWs, ha] at hc
        subst hc
        exact Or.inr ⟨List.mem_singleton.mpr rfl, ha⟩
      · simp [collapseWs, ha] at hc
        exact Or.inl hc
    | cons b tl2 =>
      intro c hc
      cases ha : isJsWs a
      · rw [collapseWs_cons_of_nonWs a (b :: tl2) ha] at hc
        rcases List.mem_cons.mp hc with hc | hc
        · subst hc
          exact Or.inr ⟨List.mem_cons_self _ _, ha⟩
        · rcases ih c hc with h | ⟨hm, hw⟩
          · exact Or.inl h
          · exact Or.inr ⟨List.mem_cons_of_mem a hm, hw⟩
      · cases hb : isJsWs b
        · simp [collapseWs, ha, hb] at hc
          rcases hc with hc | hc
          · exact Or.inl hc
          · rcases ih c hc with h | ⟨hm, hw⟩
            · exact Or.inl h
            · exact Or.inr ⟨List.mem_cons_of_mem a hm, hw⟩
        · simp [collapseWs, ha, hb] at hc
          rcases ih c hc with h | ⟨hm, hw⟩
          · exact Or.inl h
          · exact Or.inr ⟨List.mem_cons_of_mem a hm, hw⟩

theorem collapseWs_chain (l : List Char) :
    List.Chain' (fun a b => ¬(isJsWs a = true ∧ isJsWs b = true)) (collapseWs l) := by
  induction l with
  | nil => simp [collapseWs]
  | cons a tl ih =>
    cases tl with
    | nil => by_cases ha : isJsWs a = true <;> simp [collapseWs, ha]
    | cons b tl2 =>
      by_cases hab : (isJsWs a && isJsWs b) = true
      · simp only [collapseWs, hab, if_true]
        exact ih
      · simp only [collapseWs, hab, if_false]
        refine List.chain'_cons'.mpr ⟨?_, ih⟩
        intro h hh
        by_cases hA : isJsWs a = true
        · have hb : isJsWs b = false := by
            cases hB : isJsWs b
            · rfl
            · exfalso; exact hab (by simp [hA, hB])
          rw [collapseWs_cons_of_nonWs b tl2 hb] at hh
          simp only [List.head?_cons, Option.mem_def, Option.some.injEq] at hh
          subst hh
          rintro ⟨_, hwb⟩
          rw [hb] at hwb
          cases hwb
        · rw [if_neg hA]
          rintro ⟨ha', _⟩
          exact hA ha'

theorem collapseWs_eq_self (l : List Char)
    (hsp : ∀ c ∈ l, isJsWs c = true → c = ' ')
    (hch : List.Chain' (fun a b => ¬(isJsWs a = true ∧ isJsWs b = true)) l) :
    collapseWs l = l := by
  induction l with
  | nil => rfl
  | cons a tl ih =>
    cases tl with
    | nil =>
      by_cases ha : isJsWs a = true
      · have := hsp a (List.mem_singleton.mpr rfl) ha
        simp [collapseWs, ha, this]
      · simp [collapseWs, ha]
    | cons b tl2 =>
      have hnab : ¬(isJsWs a = true ∧ isJsWs b = true) :=
        (List.chain'_cons.mp hch).1
      have hcond : (isJsWs a && isJsWs b) = false := by
        cases hA : isJsWs a <;> cases hB : isJsWs b <;> simp_all
      have htl : collapseWs (b :: tl2) = b :: tl2 :=
        ih (fun c hc hw => hsp c (List.mem_cons_of_mem a hc) hw)
          (List.chain'_cons.mp hch).2
      simp only [collapseWs, hcond, Bool.false_eq_true, if_false]
      by_cases hA : isJsWs a = true
      · have := hsp a (List.mem_cons_self a _) hA
        rw [if_pos hA, htl, this]
      · rw [if_neg hA, htl]

theorem mem_of_mem_dropWhile (p : Char → Bool) (c : Char) (l : List Char)
    (h : c ∈ l.dropWhile p) : c ∈ l := by
  induction l with
  | nil => cases h
  | cons a tl ih =>
    by_cases hp : p a = true
    · rw [List.dropWhile_cons, if_pos hp] at h
      exact List.mem_cons_of_mem a (ih h)
    · rw [List.dropWhile_cons, if_neg hp] at h
      exact h

theorem trimWs_mem (c : Char) (l : List Char) (h : c ∈ trimWs l) : c ∈ l := by
  rw [trimWs, trimRight] at h
  have h1 : c ∈ (l.dropWhile isJsWs).reverse.dropWhile isJsWs :=
    List.mem_reverse.mp h
  have h2 : c ∈ (l.dropWhile isJsWs).reverse := mem_of_mem_dropWhile _ c _ h1
  exact mem_of_mem_dropWhile _ c _ (List.mem_reverse.mp h2)

theorem chain'_dropWhile {R : Char → Char → Prop} (p : Char → Bool)
    (l : List Char) (h : List.Chain' R l) : List.Chain' R (l.dropWhile p) := by
  induction l with
  | nil => simpa using h
  | cons a tl ih =>
    by_cases hp : p a = true
    · rw [List.dropWhile_cons, if_pos hp]
      exact ih h.tail
    · rw [List.dropWhile_cons, if_neg hp]
      exact h

theorem chain'_trimRight {R : Char → Char → Prop} (m : List Char)
    (h : List.Chain' R m) : List.Chain' R (trimRight m) := by
  rw [trimRight, List.chain'_reverse]
  apply chain'_dropWhile
  rw [List.chain'_reverse]
  exact h

theorem chain'_trimWs {R : Char → Char → Prop} (l : List Char)
    (h : List.Chain' R l) : List.Chain' R (trimWs l) :=
  chain'_trimRight _ (chain'_dropWhile isJsWs l h)

theorem dropWhile_idem (p : Char → Bool) (l : List Char) :
    (l.dropWhile p).dropWhile p = l.dropWhile p := by
  induction l with
  | nil => rfl
  | cons a tl ih =>
    by_cases hp : p a = true
    · simp [List.dropWhile_cons, hp, ih]
    · simp [List.dropWhile_cons, hp]

theorem trimRight_append (m : List Char) :
    trimRight m ++ (m.reverse.takeWhile isJsWs).reverse = m := by
  rw [trimRight, ← List.reverse_append, List.takeWhile_append_dropWhile,
    List.reverse_reverse]

theorem trimRight_idem (m : List Char) : trimRight (trimRight m) = trimRight m := by
  rw [trimRight, trimRight, List.reverse_reverse, dropWhile_idem]

theorem head_false_of_dropWhile (p : Char → Bool) (l : List Char) (c : Char)
    (h : (l.dropWhile p).head? = some c) : p c = false := by
  induction l with
  | nil => cases h
  | cons a tl ih =>
    by_cases hp : p a = true
    · rw [List.dropWhile_cons, if_pos hp] at h
      exact ih h
    · rw [List.dropWhile_cons, if_neg hp] at h
      rw [List.head?_cons, Option.some.injEq] at h
      subst h
      simpa using hp

theorem dropWhile_eq_self_of_head (p : Char → Bool) (m : List Char)
    (h : ∀ c, m.head? = some c → p c = false) : m.dropWhile p = m := by
  cases m with
  | nil => rfl
  | cons a tl =>
    rw [List.dropWhile_cons, if_neg]
    simp [h a rfl]

theorem head?_trimRight (m : List Char) (c : Char)
    (h : (trimRight m).head? = some c) : m.head? = some c := by
  have happ := trimRight_append m
  rcases htr : trimRight m with _ | ⟨x, s⟩
  · rw [htr] at h; cases h
  · rw [htr] at h happ
    rw [List.head?_cons, Option.some.injEq] at h
    subst h
    rw [← happ]
    rfl

theorem trimWs_idem (l : List Char) : trimWs (trimWs l) = trimWs l := by
  rw [trimWs, trimWs]
  have hdw : (trimRight (l.dropWhile isJsWs)).dropWhile isJsWs =
      trimRight (l.dropWhile isJsWs) := by
    apply dropWhile_eq_self_of_head
    intro c hc
    exact head_false_of_dropWhile isJsWs l c (head?_trimRight _ c hc)
  rw [hdw, trimRight_idem]

theorem normalizeChars_plain (l : List Char) :
    ∀ c ∈ normalizeChars l, PlainChar c := by
  intro c hc
  rw [normalizeChars] at hc
  have hc1 := trimWs_mem c _ hc
  rcases collapseWs_mem _ c hc1 with h | ⟨hm, hw⟩
  · exact Or.inr (Or.inr h)
  · have hk : isKeptChar c = true := (List.mem_filter.mp hm).2
    simp only [isKeptChar, Bool.or_eq_true, Bool.and_eq_true,
      decide_eq_true_eq] at hk
    rcases hk with (⟨a, b⟩ | ⟨a, b⟩) | hws
    · exact Or.inl ⟨a, b⟩
    · exact Or.inr (Or.inl ⟨a, b⟩)
    · rw [hw] at hws; cases hws

theorem map_id_of_plain (l : List Char) (h : ∀ c ∈ l, jsToLower c = c) :
    l.map jsToLower = l := by
  induction l with
  | nil => rfl
  | cons a tl ih =>
    rw [List.map_cons, h a (List.mem_cons_self a tl),
      ih fun c hc => h c (List.mem_cons_of_mem a hc)]

theorem flatMap_id_of_plain (l : List Char) (h : ∀ c ∈ l, nfdChar c = [c]) :
    l.flatMap nfdChar = l := by
  induction l with
  | nil => rfl
  | cons a tl ih =>
    rw [List.flatMap_cons, h a (List.mem_cons_self a tl),
      ih fun c hc => h c (List.mem_cons_of_mem a hc)]
    rfl

theorem normalizeChars_ws_space (l : List Char) :
    ∀ c ∈ normalizeChars l, isJsWs c = true → c = ' ' := by
  intro c hc hw
  rw [normalizeChars] at hc
  have hc1 := trimWs_mem c _ hc
  rcases collapseWs_mem _ c hc1 with h | ⟨_, hwf⟩
  · exact h
  · rw [hwf] at hw; cases hw

theorem normalizeChars_chain (l : List Char) :
    List.Chain' (fun a b => ¬(isJsWs a = true ∧ isJsWs b = true))
      (normalizeChars l) := by
  rw [normalizeChars]
  exact chain'_trimWs _ (collapseWs_chain _)

theorem normalizeChars_idem (l : List Char) :
    normalizeChars (normalizeChars l) = normalizeChars l := by
  have hpl := normalizeChars_plain l
  have h1 : (normalizeChars l).map jsToLower = normalizeChars l :=
    map_id_of_plain _ fun c hc => jsToLower_plain c (hpl c hc)
  have h2 : (normalizeChars l).flatMap nfdChar = normalizeChars l :=
    flatMap_id_of_plain _ fun c hc => nfdChar_plain c (hpl c hc)
  have h3 : (normalizeChars l).filter (fun c => !isMarkChar c) = normalizeChars l := by
    rw [List.filter_eq_self]
    intro c hc
    rw [isMarkChar_plain c (hpl c hc)]
    rfl
  have h4 : (normalizeChars l).filter isKeptChar = normalizeChars l := by
    rw [List.filter_eq_self]
    intro c hc
    rw [isKeptChar_plain c (hpl c hc)]
  have h5 : collapseWs (normalizeChars l) = normalizeChars l :=
    collapseWs_eq_self _ (normalizeChars_ws_space l) (normalizeChars_chain l)
  have h6 : trimWs (normalizeChars l) = normalizeChars l := by
    conv_lhs => rw [normalizeChars]
    rw [trimWs_idem]
    rfl
  conv_lhs => rw [normalizeChars]
  rw [h1, h2, h3, h4, h5, h6]

/-! ### Claim theorems -/

/-- C1: for every pick with non-empty players and every non-empty event
list, the policy returns the lexical top candidate with the lexical
confidence exactly when `conf ≥ 0.7`, or `conf ≥ 0.5` with no escalation
resolver available; otherwise, if a resolver is available it is invoked
and a selection ends the resolution, and with no selection the lexical
result is accepted exactly when `conf ≥ 0.3`; else the result is the
null event with confidence 0 and the candidate list still populated. -/
theorem C1_policy_characterization (pick : Pick) (events : List Event)
    (apiKey : Bool) (llm : LLMOutcome) (r : SimpleResult)
    (hp : pick.players ≠ []) (he : events ≠ [])
    (hr : findMatchingEventSimple pick events = some r) :
    findMatchingEventWithDebug pick events apiKey llm =
      if mkRat 7 10 ≤ r.confidence ∨ (mkRat 5 10 ≤ r.confidence ∧ apiKey = false) then
        (⟨r.event, r.confidence, r.allCandidates⟩, false)
      else
        match (if apiKey then findMatchingEventLLM events llm else none) with
        | some e => (⟨some e, mkRat 9 10, r.allCandidates⟩, true)
        | none =>
          if mkRat 3 10 ≤ r.confidence then
            (⟨r.event, r.confidence, r.allCandidates⟩, apiKey)
          else (⟨none, 0, r.allCandidates⟩, apiKey) := by
  rw [withDebug_unfold_some pick events apiKey llm r he hr]
  have hiff : (mkRat 5 10 ≤ r.confidence ∧ (mkRat 7 10 ≤ r.confidence ∨ apiKey = false)) ↔
      (mkRat 7 10 ≤ r.confidence ∨ (mkRat 5 10 ≤ r.confidence ∧ apiKey = false)) := by
    constructor
    · rintro ⟨h12, h710 | hk⟩
      · exact Or.inl h710
      · exact Or.inr ⟨h12, hk⟩
    · rintro (h710 | ⟨h12, hk⟩)
      · exact ⟨le_trans (by decide) h710, Or.inl h710⟩
      · exact ⟨h12, Or.inr hk⟩
  rw [if_congr hiff rfl rfl]
  cases apiKey <;> rfl

/-- C1 witness: a concrete instantiation (one player with an exact
participant match, confidence 0.9 ≥ 0.7, no resolver). -/
theorem C1_witness :
    findMatchingEventWithDebug ⟨["ab"], some "tennis", none⟩
        [⟨some "tennis", none, some "ab", none, none, none⟩] false .failure =
      (⟨some ⟨some "tennis", none, some "ab", none, none, none⟩, mkRat 9 10,
        [⟨⟨some "tennis", none, some "ab", none, none, none⟩, mkRat 9 10⟩]⟩, false) := by
  have := C1_policy_characterization ⟨["ab"], some "tennis", none⟩
    [⟨some "tennis", none, some "ab", none, none, none⟩] false .failure
    ⟨some ⟨some "tennis", none, some "ab", none, none, none⟩, mkRat 9 10,
      [⟨⟨some "tennis", none, some "ab", none, none, none⟩, mkRat 9 10⟩]⟩
    (by decide) (by decide) (by decide)
  rw [this]
  decide

/-- C2: the lexical score of a (pick, event) pair decomposes as the sum
of sport bonus, league bonus, and one first-rule player bonus per pick
player against the normalized participant pool; and the simple scorer's
confidence equals `min(bestScore, 1.0)` where `bestScore` is the running
maximum of the event scores (starting at 0). -/
theorem C2_lexical_score (pick : Pick) (event : Event) (events : List Event)
    (r : SimpleResult) (hp : pick.players ≠ [])
    (hr : findMatchingEventSimple pick events = some r) :
    scoreEvent pick event = sportBonus pick event + leagueBonus pick event +
      (pick.players.map (fun pl =>
        playerBonus (normalizeChars pl.data) (participantPool event))).sum ∧
    r.confidence = min ((events.map (scoreEvent pick)).foldl max 0) 1 := by
  constructor
  · rw [scoreEvent, foldl_add_eq_sum]
  · have hre := simple_eq_some pick events r hp hr
    subst hre
    rcases hbest : (scanEvents pick none 0 [] events).1 with _ | e
    · simp only [hbest]
      have hall : ∀ x ∈ events, scoreEvent pick x ≤ 0 :=
        scanEvents_none pick events none 0 [] hbest
      have hle : (events.map (scoreEvent pick)).foldl max 0 ≤ 0 := by
        refine foldl_max_le _ 0 0 le_rfl ?_
        intro x hx
        rcases List.mem_map.mp hx with ⟨y, hy, hyx⟩
        exact hyx ▸ hall y hy
      have hge : (0 : ℚ) ≤ (events.map (scoreEvent pick)).foldl max 0 :=
        le_foldl_max _ 0
      rw [le_antisymm hle hge, min_eq_left (by norm_num : (0:ℚ) ≤ 1)]
    · simp only [hbest]

/-- C2 witness: concrete decomposition and clamp for a one-event list. -/
theorem C2_witness :
    scoreEvent ⟨["ab"], some "tennis", none⟩
        ⟨some "tennis", none, some "ab", none, none, none⟩ =
      sportBonus ⟨["ab"], some "tennis", none⟩
        ⟨some "tennis", none, some "ab", none, none, none⟩ +
      leagueBonus ⟨["ab"], some "tennis", none⟩
        ⟨some "tennis", none, some "ab", none, none, none⟩ +
      ((["ab"] : List String).map (fun pl =>
        playerBonus (normalizeChars pl.data)
          (participantPool ⟨some "tennis", none, some "ab", none, none, none⟩))).sum ∧
    mkRat 9 10 = min
      (([⟨some "tennis", none, some "ab", none, none, none⟩].map
        (scoreEvent ⟨["ab"], some "tennis", none⟩)).foldl max 0) 1 := by
  have := C2_lexical_score ⟨["ab"], some "tennis", none⟩
    ⟨some "tennis", none, some "ab", none, none, none⟩
    [⟨some "tennis", none, some "ab", none, none, none⟩]
    ⟨some ⟨some "tennis", none, some "ab", none, none, none⟩, mkRat 9 10,
      [⟨⟨some "tennis", none, some "ab", none, none, none⟩, mkRat 9 10⟩]⟩
    (by decide) (by decide)
  exact ⟨this.1, this.2⟩

/-- C3 counterexample: with an empty players list, a non-empty event
list and an available escalation resolver, the resolver IS invoked and
its selection is returned (so the result is not the null result). -/
theorem C3_counterexample :
    (findMatchingEventWithDebug ⟨[], none, none⟩ [({} : Event)] true
      (.parsed (some 0) 1)).2 = true ∧
    (findMatchingEventWithDebug ⟨[], none, none⟩ [({} : Event)] true
      (.parsed (some 0) 1)).1.event = some ({} : Event) := ⟨rfl, rfl⟩

/-- C3 (amended): for every pick with empty players, resolution returns
the null result with empty candidates whenever the escalation resolver
is unavailable, the event list is empty, or the resolver makes no
selection; but with non-empty events and an available resolver the
resolver IS invoked, and a selection by it is returned with confidence
0.9. -/
theorem C3_amended_empty_players (pick : Pick) (events : List Event)
    (apiKey : Bool) (llm : LLMOutcome) (hp : pick.players = []) :
    findMatchingEventWithDebug pick events apiKey llm =
      match (if !events.isEmpty && apiKey then findMatchingEventLLM events llm
             else none) with
      | some e => (⟨some e, mkRat 9 10, []⟩, true)
      | none => (⟨none, 0, []⟩, !events.isEmpty && apiKey) := by
  rcases events with _ | ⟨e₀, rest⟩
  · rfl
  · have hn : findMatchingEventSimple pick (e₀ :: rest) = none :=
      (simple_none_iff pick (e₀ :: rest)).mpr hp
    rw [withDebug_unfold_none pick (e₀ :: rest) apiKey llm (by simp) hn]
    cases apiKey
    · rfl
    · rcases hllm : findMatchingEventLLM (e₀ :: rest) llm with _ | e <;> rfl

/-- C3 witness: empty players with no resolver available yields the
null result without invoking the resolver. -/
theorem C3_witness :
    findMatchingEventWithDebug ⟨[], none, none⟩ [({} : Event)] false .failure =
      (⟨none, 0, []⟩, false) := by
  have := C3_amended_empty_players ⟨[], none, none⟩ [({} : Event)] false .failure rfl
  simpa using this

/-- C4 counterexample: with 51 events, the bounded slice sent to the
resolver has length 50 (valid slice indices are 0‥49), yet a response
selecting index 50 is accepted and the full event list is indexed. -/
theorem C4_counterexample :
    ¬((50 : ℕ) < ((List.replicate 51 ({} : Event)).take 50).length) ∧
    findMatchingEventLLM (List.replicate 51 ({} : Event))
      (.parsed (some 50) 0) = some ({} : Event) := by
  constructor
  · simp
  · rfl

/-- C4 (amended): the selected index is validated against the full event
list, not the 50-event slice: a null index, a negative index, or an
index `≥ events.length` is rejected and the event list is never indexed
with it; an in-list index beyond the slice is accepted. -/
theorem C4_amended_range_check (events : List Event) (i : Int) (conf : ℚ)
    (h : ¬(0 ≤ i ∧ i < (events.length : Int))) :
    findMatchingEventLLM events (.parsed (some i) conf) = none := by
  simp only [findMatchingEventLLM]
  rw [if_neg h]

/-- C4 witness: a negative index is rejected. -/
theorem C4_witness :
    findMatchingEventLLM [({} : Event)] (.parsed (some (-1)) 0) = none :=
  C4_amended_range_check [({} : Event)] (-1) 0 (by decide)

/-- C5: for the empty event candidate list, resolution returns the null
result with empty candidates immediately and never invokes the
escalation resolver. -/
theorem C5_empty_events (pick : Pick) (apiKey : Bool) (llm : LLMOutcome) :
    findMatchingEventWithDebug pick [] apiKey llm = (⟨none, 0, []⟩, false) := rfl

/-- C6: when escalation is reached (resolver available, lexical
confidence below 0.7), a resolver selection is returned with the fixed
confidence 0.9 — not the resolver's own reported confidence, which is
universally quantified inside `llm` — while every resolver failure
(thrown error, non-text content, null index) yields no selection and the
policy degrades to the `≥ 0.3` lexical fallback or the null result. -/
theorem C6_escalation_policy (pick : Pick) (events : List Event)
    (llm : LLMOutcome) (r : SimpleResult) (he : events ≠ [])
    (hr : findMatchingEventSimple pick events = some r)
    (hno : ¬(mkRat 7 10 ≤ r.confidence)) :
    (∀ e, findMatchingEventLLM events llm = some e →
      findMatchingEventWithDebug pick events true llm =
        (⟨some e, mkRat 9 10, r.allCandidates⟩, true)) ∧
    (findMatchingEventLLM events llm = none →
      findMatchingEventWithDebug pick events true llm =
        (if mkRat 3 10 ≤ r.confidence then
          (⟨r.event, r.confidence, r.allCandidates⟩, true)
         else (⟨none, 0, r.allCandidates⟩, true))) ∧
    findMatchingEventLLM events .failure = none ∧
    findMatchingEventLLM events .nonText = none ∧
    (∀ c : ℚ, findMatchingEventLLM events (.parsed none c) = none) := by
  have hcond : ¬(mkRat 5 10 ≤ r.confidence ∧ (mkRat 7 10 ≤ r.confidence ∨ (true : Bool) = false)) := by
    rintro ⟨h1, h2 | h3⟩
    · exact hno h2
    · simp at h3
  rw [withDebug_unfold_some pick events true llm r he hr, if_neg hcond]
  refine ⟨?_, ?_, rfl, rfl, fun c => rfl⟩
  · intro e hllm
    simp only [if_true, hllm]
  · intro hllm
    simp only [if_true, hllm]

/-- C6 witness: resolver failure is swallowed at a concrete input. -/
theorem C6_witness :
    findMatchingEventLLM [({} : Event)] LLMOutcome.failure = none :=
  (C6_escalation_policy ⟨["ab"], none, none⟩ [({} : Event)] .failure
    ⟨none, 0, []⟩ (by decide) (by decide) (by decide)).2.2.1

/-- C7: the event returned by the lexical scorer is the one at the least
index attaining the maximal score (so on a top-score tie the earlier
event in the input sequence wins), and `allCandidates` is sorted by
score descending while equal-score candidates keep their input order
(filtering any fixed score out of the sorted list equals filtering it
out of the input-order positive-score candidate list). -/
theorem C7_ties_and_stable_order (pick : Pick) (events : List Event)
    (r : SimpleResult) (hp : pick.players ≠ [])
    (hr : findMatchingEventSimple pick events = some r) :
    (∀ e, r.event = some e → ∃ i : Fin events.length, events.get i = e ∧
      (∀ x ∈ events, scoreEvent pick x ≤ scoreEvent pick e) ∧
      ∀ j : Fin events.length, (j : ℕ) < (i : ℕ) →
        scoreEvent pick (events.get j) < scoreEvent pick e) ∧
    r.allCandidates.Pairwise (fun a b => b.score ≤ a.score) ∧
    (∀ q : ℚ, r.allCandidates.filter (fun c => c.score == q) =
      ((events.map (fun e => Candidate.mk e (scoreEvent pick e))).filter
        (fun c => decide (0 < c.score))).filter (fun c => c.score == q)) := by
  have hre := simple_eq_some pick events r hp hr
  subst hre
  refine ⟨?_, sortCands_pairwise _, fun q => sortCands_filter _ q⟩
  intro e he
  simp only at he
  rcases scanEvents_best_spec pick events none 0 [] e he with ⟨hb, _⟩ | ⟨i, hget, _, hall, hpre⟩
  · cases hb
  · exact ⟨i, hget, hall, hpre⟩

/-- C7 witness: two events tying at the top score; the candidate list
keeps them sorted (trivially, equal scores) in input order. -/
theorem C7_witness :
    ([⟨⟨none, none, some "ab", none, none, none⟩, mkRat 7 10⟩,
      ⟨⟨none, none, none, some "ab", none, none⟩, mkRat 7 10⟩] : List Candidate).Pairwise
      (fun a b => b.score ≤ a.score) :=
  (C7_ties_and_stable_order ⟨["ab"], none, none⟩
    [⟨none, none, some "ab", none, none, none⟩,
     ⟨none, none, none, some "ab", none, none⟩]
    ⟨some ⟨none, none, some "ab", none, none, none⟩, mkRat 7 10,
      [⟨⟨none, none, some "ab", none, none, none⟩, mkRat 7 10⟩,
       ⟨⟨none, none, none, some "ab", none, none⟩, mkRat 7 10⟩]⟩
    (by decide) (by decide)).2.1

/-- C8: normalization is idempotent — normalizing an already-normalized
string returns it unchanged — and diacritic-bearing and diacritic-free
forms of the same name normalize to the same string: both
`"José García"` and `"Jose Garcia"` normalize to `"jose garcia"`. -/
theorem C8_normalize_idempotent_diacritics :
    (∀ s : String, normalizePlayerName (normalizePlayerName s) = normalizePlayerName s) ∧
    normalizePlayerName "José García" = "jose garcia" ∧
    normalizePlayerName "Jose Garcia" = "jose garcia" := by
  refine ⟨?_, by decide, by decide⟩
  intro s
  exact congrArg String.mk (normalizeChars_idem s.data)

/-- C9 counterexample: an escalation-selected event is returned with an
empty candidate list, so no entry for the returned event exists in
`candidates`. -/
theorem C9_counterexample :
    (findMatchingEventWithDebug ⟨["zz"], none, none⟩ [({} : Event)] true
      (.parsed (some 0) 1)).1.event = some ({} : Event) ∧
    (findMatchingEventWithDebug ⟨["zz"], none, none⟩ [({} : Event)] true
      (.parsed (some 0) 1)).1.candidates = [] := ⟨rfl, rfl⟩

/-- C9 (amended): a non-null resolved event always has confidence
strictly greater than 0; and whenever the result did not come from an
escalation selection (the resolver was not invoked or made no
selection), a maximal-score entry for the event exists in `candidates`
(hence at the head up to equal scores). An escalation-selected event
need not appear in `candidates`. -/
theorem C9_amended_result_invariant (pick : Pick) (events : List Event)
    (apiKey : Bool) (llm : LLMOutcome) (e : Event)
    (hev : (findMatchingEventWithDebug pick events apiKey llm).1.event = some e) :
    0 < (findMatchingEventWithDebug pick events apiKey llm).1.confidence ∧
    (((findMatchingEventWithDebug pick events apiKey llm).2 = false ∨
      findMatchingEventLLM events llm = none) →
      ∃ c ∈ (findMatchingEventWithDebug pick events apiKey llm).1.candidates,
        c.event = e ∧
        ∀ c' ∈ (findMatchingEventWithDebug pick events apiKey llm).1.candidates,
          c'.score ≤ c.score) := by
  by_cases hene : events = []
  · subst hene
    exact absurd hev (fun h => Option.noConfusion h)
  · rcases hsr : findMatchingEventSimple pick events with _ | r
    · rw [withDebug_unfold_none pick events apiKey llm hene hsr] at hev ⊢
      rcases hkey : (if apiKey then findMatchingEventLLM events llm else none) with _ | e'
      · rw [hkey] at hev
        exact absurd hev (fun h => Option.noConfusion h)
      · rw [hkey] at hev
        have hak : apiKey = true := by
          cases hak' : apiKey
          · rw [hak'] at hkey
            exact absurd hkey (fun h => Option.noConfusion h)
          · rfl
        subst hak
        refine ⟨show (0 : ℚ) < mkRat 9 10 by decide, ?_⟩
        rintro (hfl | hnone)
        · exact Bool.noConfusion hfl
        · have hsel : findMatchingEventLLM events llm = some e' := by simpa using hkey
          rw [hnone] at hsel
          exact Option.noConfusion hsel
    · have hp : pick.players ≠ [] := fun hpl => by
        rw [(simple_none_iff pick events).mpr hpl] at hsr
        cases hsr
      rw [withDebug_unfold_some pick events apiKey llm r hene hsr] at hev ⊢
      by_cases hcond : mkRat 5 10 ≤ r.confidence ∧ (mkRat 7 10 ≤ r.confidence ∨ apiKey = false)
      · rw [if_pos hcond] at hev ⊢
        have hre : r.event = some e := hev
        rcases simple_some_facts pick events r e hp hsr hre with ⟨hpos, hentry⟩
        exact ⟨lt_of_lt_of_le (by decide) hcond.1, fun _ => hentry⟩
      · rw [if_neg hcond] at hev ⊢
        rcases hkey : (if apiKey then findMatchingEventLLM events llm else none) with _ | e'
        · rw [hkey] at hev
          by_cases hfb : mkRat 3 10 ≤ r.confidence
          · rw [if_pos hfb] at hev ⊢
            have hre : r.event = some e := hev
            rcases simple_some_facts pick events r e hp hsr hre with ⟨hpos, hentry⟩
            exact ⟨lt_of_lt_of_le (by decide) hfb, fun _ => hentry⟩
          · rw [if_neg hfb] at hev
            exact absurd hev (fun h => Option.noConfusion h)
        · rw [hkey] at hev
          have hak : apiKey = true := by
            cases hak' : apiKey
            · rw [hak'] at hkey
              exact absurd hkey (fun h => Option.noConfusion h)
            · rfl
          subst hak
          refine ⟨show (0 : ℚ) < mkRat 9 10 by decide, ?_⟩
          rintro (hfl | hnone)
          · exact Bool.noConfusion hfl
          · have hsel : findMatchingEventLLM events llm = some e' := by simpa using hkey
            rw [hnone] at hsel
            exact Option.noConfusion hsel

/-- C9 witness: a lexical match carries positive confidence. -/
theorem C9_witness :
    0 < (findMatchingEventWithDebug ⟨["ab"], none, none⟩
      [⟨none, none, some "ab", none, none, none⟩] false .failure).1.confidence :=
  (C9_amended_result_invariant ⟨["ab"], none, none⟩
    [⟨none, none, some "ab", none, none, none⟩] false .failure
    ⟨none, none, some "ab", none, none, none⟩ (by decide)).1

/-- C10: the resolved event is null exactly when the confidence is 0,
and every non-null result has confidence at least 0.3 — the policy never
returns a matched event with confidence strictly between 0 and 0.3. -/
theorem C10_null_iff_zero_conf (pick : Pick) (events : List Event)
    (apiKey : Bool) (llm : LLMOutcome) :
    ((findMatchingEventWithDebug pick events apiKey llm).1.event = none ↔
      (findMatchingEventWithDebug pick events apiKey llm).1.confidence = 0) ∧
    ∀ e, (findMatchingEventWithDebug pick events apiKey llm).1.event = some e →
      mkRat 3 10 ≤ (findMatchingEventWithDebug pick events apiKey llm).1.confidence := by
  by_cases hene : events = []
  · subst hene
    exact ⟨⟨fun _ => rfl, fun _ => rfl⟩, fun e he => Option.noConfusion he⟩
  · rcases hsr : findMatchingEventSimple pick events with _ | r
    · rw [withDebug_unfold_none pick events apiKey llm hene hsr]
      rcases hkey : (if apiKey then findMatchingEventLLM events llm else none) with _ | e'
      · exact ⟨⟨fun _ => rfl, fun _ => rfl⟩, fun e he => Option.noConfusion he⟩
      · exact ⟨⟨fun h => Option.noConfusion h,
            fun h => absurd (show mkRat 9 10 = (0 : ℚ) from h) (by decide)⟩,
          fun e he => show mkRat 3 10 ≤ mkRat 9 10 by decide⟩
    · have hp : pick.players ≠ [] := fun hpl => by
        rw [(simple_none_iff pick events).mpr hpl] at hsr
        cases hsr
      rw [withDebug_unfold_some pick events apiKey llm r hene hsr]
      by_cases hcond : mkRat 5 10 ≤ r.confidence ∧ (mkRat 7 10 ≤ r.confidence ∨ apiKey = false)
      · rw [if_pos hcond]
        rcases hre : r.event with _ | e
        · have hc0 := simple_conf_of_event_none pick events r hp hsr hre
          rw [hc0] at hcond
          exact absurd hcond.1 (by decide)
        · have hpos := (simple_some_facts pick events r e hp hsr hre).1
          refine ⟨⟨fun h => Option.noConfusion h, fun h => ?_⟩, fun e' he' => ?_⟩
          · have h' : r.confidence = 0 := h
            rw [h'] at hpos
            exact absurd hpos (lt_irrefl 0)
          · exact le_trans (by decide) hcond.1
      · rw [if_neg hcond]
        rcases hkey : (if apiKey then findMatchingEventLLM events llm else none) with _ | e'
        · by_cases hfb : mkRat 3 10 ≤ r.confidence
          · rw [if_pos hfb]
            rcases hre : r.event with _ | e
            · have hc0 := simple_conf_of_event_none pick events r hp hsr hre
              rw [hc0] at hfb
              exact absurd hfb (by decide)
            · have hpos := (simple_some_facts pick events r e hp hsr hre).1
              refine ⟨⟨fun h => Option.noConfusion h, fun h => ?_⟩, fun e' he' => ?_⟩
              · have h' : r.confidence = 0 := h
                rw [h'] at hpos
                exact absurd hpos (lt_irrefl 0)
              · exact hfb
          · rw [if_neg hfb]
            exact ⟨⟨fun _ => rfl, fun _ => rfl⟩, fun e he => Option.noConfusion he⟩
        · exact ⟨⟨fun h => Option.noConfusion h,
              fun h => absurd (show mkRat 9 10 = (0 : ℚ) from h) (by decide)⟩,
            fun e he => show mkRat 3 10 ≤ mkRat 9 10 by decide⟩

/-- C10 witness: a concrete lexical match has confidence ≥ 0.3. -/
theorem C10_witness :
    mkRat 3 10 ≤ (findMatchingEventWithDebug ⟨["ab"], none, none⟩
      [⟨none, none, some "ab", none, none, none⟩] false .failure).1.confidence :=
  (C10_null_iff_zero_conf ⟨["ab"], none, none⟩
    [⟨none, none, some "ab", none, none, none⟩] false .failure).2
    ⟨none, none, some "ab", none, none, none⟩ (by decide)

end BovadaMatcher
